import Mathlib

/-!
# Verification of the TicTacFoe game engine

Shallow embedding of the TicTacFoe repository's core:

* `src/game/base.rs` — the 3×3 small board (`SmallBoard` below; the struct is
  named `Board` in `base.rs` and re-exported as `SmallBoard`): cell access with
  the out-of-bounds guard, the row/column/diagonal win checks, completeness
  check, and `make_move`.
* `src/game/ultimate.rs` — the ultimate board (`BigBoard`): nine small boards,
  the active-sub-board constraint, meta-state derivation, and `make_move`.
* `src/ai/mcts.rs` — the MCTS engine: arena of nodes with integer ids,
  `back_propagate`, `reroot`, `make_children`, the UCB1 `potential`, and the
  selection loop.

Rust panics are modelled by `Option`/`none` results (a panic aborts the
operation; the caller's value is unchanged).  Machine floats (`f32` statistics)
are embedded as exact rationals for the additive statistics — every value the
code produces is a multiple of 1/2, exactly representable — and as reals for
the UCB1 score, which uses `sqrt` and `ln`.
-/

/-- Modelled from the spec: the `Mark` enum ({X, O}) declared in the game
module root, which is not present under src/ (only its users are). -/
inductive Mark : Type
  | X : Mark
  | O : Mark
deriving DecidableEq, Repr

/-- Modelled from the spec: `Mark::switch`, exchanging the two players. -/
def Mark.switch : Mark → Mark
  | Mark.X => Mark.O
  | Mark.O => Mark.X

/-- Modelled from the spec: the `GameState` enum ({Playing, Won(Mark), Draw})
declared in the game module root, which is not present under src/. -/
inductive GameState : Type
  | Playing : GameState
  | Won : Mark → GameState
  | Draw : GameState
deriving DecidableEq, Repr

/-- A 3×3 tic-tac-toe board (`Board` in `src/game/base.rs`, used as
`SmallBoard` by `ultimate.rs`): a flat array of 9 optional marks in row-major
order, plus the stored game state. -/
structure SmallBoard : Type where
  cells : Fin 9 → Option Mark
  state : GameState
deriving DecidableEq

/-- Embeds `Board::new`: all cells empty, state `Playing`. -/
def SmallBoard.new : SmallBoard :=
  { cells := fun _ => none, state := GameState.Playing }

/-- Embeds `Board::get`: the guard is the source's `row > 3 || col > 3`; past the
guard the code indexes `cells[row * 3 + col]`, which panics (here: `none`)
when the flat index is out of the array's range. -/
def SmallBoard.get? (b : SmallBoard) (row col : Nat) : Option (Option Mark) :=
  if 3 < row ∨ 3 < col then none
  else if h : row * 3 + col < 9 then some (b.cells ⟨row * 3 + col, h⟩) else none

/-- Embeds `Board::set`, with the same guard and indexing as `Board::get`. -/
def SmallBoard.set? (b : SmallBoard) (row col : Nat) (mark : Option Mark) :
    Option SmallBoard :=
  if 3 < row ∨ 3 < col then none
  else if h : row * 3 + col < 9 then
    some { b with cells := Function.update b.cells ⟨row * 3 + col, h⟩ mark }
  else none

/-- Direct cell read used by the win/completeness checks, whose call sites
only use row/column indices 0–2, where `Board::get` cannot panic and returns
exactly this value. -/
def SmallBoard.getCell (b : SmallBoard) (row col : Nat) : Option Mark :=
  if h : row * 3 + col < 9 then b.cells ⟨row * 3 + col, h⟩ else none

/-- Embeds `check_row` generic in the cell reader (the repository runs the same
row/column/diagonal checks on the small board's cells and, through the `Board`
trait, on the big board's sub-board outcomes): the three cells of `row` hold
the same mark.  The source's loop over columns 1..3 is unrolled. -/
def checkRowG (g : Nat → Nat → Option Mark) (row : Nat) : Option Mark :=
  (g row 0).bind fun m0 =>
  (g row 1).bind fun m1 =>
  if m1 ≠ m0 then none else
  (g row 2).bind fun m2 =>
  if m2 ≠ m0 then none else some m0

/-- Embeds `check_col`, generic in the cell reader. -/
def checkColG (g : Nat → Nat → Option Mark) (col : Nat) : Option Mark :=
  (g 0 col).bind fun m0 =>
  (g 1 col).bind fun m1 =>
  if m1 ≠ m0 then none else
  (g 2 col).bind fun m2 =>
  if m2 ≠ m0 then none else some m0

/-- Embeds `check_diag_dexter` (top-left to bottom-right), generic in the reader. -/
def checkDiagDexterG (g : Nat → Nat → Option Mark) : Option Mark :=
  (g 0 0).bind fun m0 =>
  (g 1 1).bind fun m1 =>
  if m1 ≠ m0 then none else
  (g 2 2).bind fun m2 =>
  if m2 ≠ m0 then none else some m0

/-- Embeds `check_diag_sinister` (top-right to bottom-left), generic in the reader. -/
def checkDiagSinisterG (g : Nat → Nat → Option Mark) : Option Mark :=
  (g 0 2).bind fun m0 =>
  (g 1 1).bind fun m1 =>
  if m1 ≠ m0 then none else
  (g 2 0).bind fun m2 =>
  if m2 ≠ m0 then none else some m0

/-- The win check over all lines, in the source's order: both diagonals first,
then row i / column i for i = 0, 1, 2 (the loop is unrolled).  `base.rs` runs
it on the small board's cells; the free `check_win` over the `Board` trait
(modelled from the spec — its defining file is not under src/) runs the
identical 3-row/3-col/2-diag rule on the big board's meta cells. -/
def checkWinG (g : Nat → Nat → Option Mark) : Option Mark :=
  checkDiagDexterG g <|> checkDiagSinisterG g <|>
  checkRowG g 0 <|> checkColG g 0 <|>
  checkRowG g 1 <|> checkColG g 1 <|>
  checkRowG g 2 <|> checkColG g 2

/-- Embeds `Board::check_complete`'s test: every one of the 9 cells is filled
(the source loops `i in 0..9` and returns false at the first empty cell). -/
def SmallBoard.checkCompleteB (b : SmallBoard) : Bool :=
  (List.finRange 9).all fun i => (b.cells i).isSome

/-- The state mutation of `Board::check_complete` (called by `make_move`):
set `Draw` when every cell is filled. -/
def SmallBoard.afterComplete (b : SmallBoard) : SmallBoard :=
  if b.checkCompleteB then { b with state := GameState.Draw } else b

/-- The state mutation of `Board::check_win` (called by `make_move` after
`check_complete`): set `Won` when a line is complete, overwriting a just-set
`Draw`. -/
def SmallBoard.afterWin (b : SmallBoard) : SmallBoard :=
  match checkWinG b.getCell with
  | some m => { b with state := GameState.Won m }
  | none => b

/-- Embeds `Board::make_move`: fails (panics; here `none`) when the state is not
`Playing` or the target cell is occupied (or out of range); otherwise places
the mark, then runs `check_complete` (setting `Draw` on a full board) and then
`check_win` (setting `Won` on a completed line, overwriting a just-set
`Draw`). -/
def SmallBoard.makeMove (b : SmallBoard) (row col : Nat) (mark : Mark) :
    Option SmallBoard :=
  if b.state ≠ GameState.Playing then none
  else match b.get? row col with
    | none => none
    | some (some _) => none
    | some none =>
      match b.set? row col (some mark) with
      | none => none
      | some b1 => some b1.afterComplete.afterWin

/-- A 3×3 grid of small boards for Ultimate Tic-Tac-Toe
(`BigBoard` in `src/game/ultimate.rs`). -/
structure BigBoard : Type where
  boards : Fin 9 → SmallBoard
  state : GameState
  active_board : Option (Nat × Nat)
deriving DecidableEq

/-- Embeds `BigBoard::new`: all small boards empty, state `Playing`, no active-board
constraint. -/
def BigBoard.new : BigBoard :=
  { boards := fun _ => SmallBoard.new
    state := GameState.Playing
    active_board := none }

/-- Embeds `BigBoard::get_board`: the guard is the source's
`board_row > 3 || board_col > 3`; past the guard the code indexes
`boards[board_row * 3 + board_col]`, which panics (here: `none`) when the flat
index is out of range. -/
def BigBoard.getBoard? (b : BigBoard) (board_row board_col : Nat) :
    Option SmallBoard :=
  if 3 < board_row ∨ 3 < board_col then none
  else if h : board_row * 3 + board_col < 9 then some (b.boards ⟨board_row * 3 + board_col, h⟩)
  else none

/-- The `Board`-trait `get` implemented for `BigBoard` (ultimate.rs):
the meta-game cell at a position is `some mark` exactly when the sub-board
there has been won by `mark`; a drawn or in-progress sub-board reads as empty.
(`get_board`'s panic is conflated with `none` here; the meta win check only
reads positions 0–2 where `get_board` cannot panic.) -/
def BigBoard.metaGet (b : BigBoard) (board_row board_col : Nat) : Option Mark :=
  match b.getBoard? board_row board_col with
  | some sb => match sb.state with
    | GameState.Won m => some m
    | _ => none
  | none => none

/-- Embeds `BigBoard::check_complete`: every sub-board's state is terminal (the
source's double loop over board rows/columns visits exactly the flat indices
0–8). -/
def BigBoard.checkCompleteB (b : BigBoard) : Bool :=
  (List.finRange 9).all fun i => decide ((b.boards i).state ≠ GameState.Playing)

/-- Whether the active-board constraint rejects a move aimed at
`(board_row, board_col)` (the source panics when an active board is set and
differs from the target). -/
def activeMismatch (active : Option (Nat × Nat)) (board_row board_col : Nat) : Bool :=
  match active with
  | some ab => decide ((board_row, board_col) ≠ ab)
  | none => false

/-- Embeds `BigBoard::make_move`: fails (panics; here `none`) when the meta state is
not `Playing` or the active-board constraint is violated; delegates to the
targeted small board's `make_move` (inheriting its failures); sets `Draw` if
all sub-boards are terminal, then `Won` if the meta win check fires
(overwriting `Draw`); finally recomputes the active board from the cell
coordinates just played: the sub-board at `(cell_row, cell_col)` if it is
still `Playing`, otherwise no constraint. -/
def BigBoard.afterComplete (b : BigBoard) : BigBoard :=
  if b.checkCompleteB then { b with state := GameState.Draw } else b

/-- The meta-state mutation performed after the completeness check: `Won` when
the (spec-modelled) free `check_win` fires on the meta cells, overwriting a
just-set `Draw`. -/
def BigBoard.afterWin (b : BigBoard) : BigBoard :=
  match checkWinG b.metaGet with
  | some m => { b with state := GameState.Won m }
  | none => b

/-- The final step of `BigBoard::make_move`: recompute `active_board` from the
cell coordinates just played, reading the target sub-board through
`get_board` (whose panic propagates as `none`). -/
def BigBoard.setActive (b : BigBoard) (cell_row cell_col : Nat) : Option BigBoard :=
  match b.getBoard? cell_row cell_col with
  | none => none
  | some tb =>
    some { b with active_board := match tb.state with
            | GameState.Playing => some (cell_row, cell_col)
            | _ => none }

def BigBoard.makeMove (b : BigBoard) (board_row board_col cell_row cell_col : Nat)
    (mark : Mark) : Option BigBoard :=
  if b.state ≠ GameState.Playing then none
  else if activeMismatch b.active_board board_row board_col then none
  else if h : board_row * 3 + board_col < 9 then
    match (b.boards ⟨board_row * 3 + board_col, h⟩).makeMove cell_row cell_col mark with
    | none => none
    | some sb1 =>
      BigBoard.setActive
        (BigBoard.afterWin (BigBoard.afterComplete
          { b with boards := Function.update b.boards ⟨board_row * 3 + board_col, h⟩ sb1 }))
        cell_row cell_col
  else none

/-- Big boards reachable from `BigBoard::new` by successful `make_move`
calls. -/
inductive BigBoard.Reachable : BigBoard → Prop
  | base : BigBoard.Reachable BigBoard.new
  | step {b b' : BigBoard} {board_row board_col cell_row cell_col : Nat} {m : Mark} :
      BigBoard.Reachable b →
      b.makeMove board_row board_col cell_row cell_col m = some b' →
      BigBoard.Reachable b'

/-- Modelled from the spec: the `Game` capability trait (apply a move,
enumerate legal moves, report state) that both board types implement and that
the MCTS engine is generic over; its defining file is not under src/.
`play` is total here — legality is asserted upstream per the spec. -/
structure GameIF (B M : Type) where
  getState : B → GameState
  getPossibleMoves : B → List M
  play : B → M → Mark → B

/-- A single node of the MCTS tree (`Node` in `src/ai/mcts.rs`).  The `f32`
statistics are embedded as exact rationals: the code only ever adds 0, 1/2 or
1 to them. -/
structure Node (B M : Type) where
  parent : Option Nat
  children : Option (List Nat)
  board : B
  active_player : Mark
  wins : ℚ
  plays : ℚ
  possible_moves : List M
deriving DecidableEq

/-- The MCTS engine state (`MCTSAi` in `src/ai/mcts.rs`): the arena of nodes
indexed by position, the current root id, and the AI's mark. -/
structure MCTSAi (B M : Type) where
  nodes : List (Node B M)
  root_id : Nat
  ai_mark : Mark
deriving DecidableEq

/-- Embeds `Node::new`: a fresh unexpanded node with zeroed statistics.  `σ` models
`board.get_possible_moves()` composed with the creation-time shuffle (a random
permutation; the claims below depend only on the list's identity per board,
never on its order being any particular permutation). -/
def Node.make (σ : B → List M) (board : B) (active_player : Mark)
    (parent : Option Nat) : Node B M :=
  { parent := parent
    children := none
    board := board
    active_player := active_player
    wins := 0
    plays := 0
    possible_moves := σ board }

/-- The per-node statistics update performed by one `back_propagate` step:
plays + 1 always; wins + 1 on a win for this node's active player, wins + 1/2
otherwise unless the result is a win for the other mark (the source matches
`Won(mark)` against the node's active player and treats every non-`Won` result
as the draw case). -/
def updateStat (result : GameState) (n : Node B M) : Node B M :=
  { n with
    plays := n.plays + 1
    wins := match result with
      | GameState.Won mark => if mark = n.active_player then n.wins + 1 else n.wins
      | _ => n.wins + 1/2 }

/-- The win-count increment of `updateStat`, as a standalone quantity. -/
def winCredit (result : GameState) (active : Mark) : ℚ :=
  match result with
  | GameState.Won mark => if mark = active then 1 else 0
  | _ => 1/2

/-- The loop body of `MCTSAi::back_propagate`, walking the parent chain.
`fuel` is an embedding device for termination only: under the arena invariant
that every parent id is smaller than its child's id (established by
`make_children`), `from_id + 1` steps always reach the parentless end of the
chain, so the fuel is never exhausted on inputs the program produces. -/
def backPropagateAux (result : GameState) :
    Nat → List (Node B M) → Nat → List (Node B M)
  | 0, nodes, _ => nodes
  | fuel + 1, nodes, node_id =>
    match nodes[node_id]? with
    | none => nodes
    | some n =>
      let nodes1 := nodes.set node_id (updateStat result n)
      match n.parent with
      | none => nodes1
      | some parent_id => backPropagateAux result fuel nodes1 parent_id

/-- Embeds `MCTSAi::back_propagate(from_id, result)`. -/
def MCTSAi.backPropagate (s : MCTSAi B M) (from_id : Nat) (result : GameState) :
    MCTSAi B M :=
  { s with nodes := backPropagateAux result (from_id + 1) s.nodes from_id }

/-- The parent-link chain starting at `node_id`, inclusive, up to the first
node whose parent is `none` (the tree root).  Same fuel device as
`backPropagateAux`. -/
def parentPathAux : Nat → List (Node B M) → Nat → List Nat
  | 0, _, _ => []
  | fuel + 1, nodes, node_id =>
    match nodes[node_id]? with
    | none => []
    | some n =>
      node_id :: (match n.parent with
        | none => []
        | some parent_id => parentPathAux fuel nodes parent_id)

/-- The parent-link path walked by `back_propagate(from_id, ·)`. -/
def parentPath (nodes : List (Node B M)) (node_id : Nat) : List Nat :=
  parentPathAux (node_id + 1) nodes node_id

/-- Embeds `MCTSAi::reroot(new_root_id)`: the source clears the parent of the node at
the CURRENT `root_id` (`self.nodes[self.root_id].parent = None`) and then
rebinds `root_id`; indexing a missing current root would panic (`none`). -/
def MCTSAi.reroot (s : MCTSAi B M) (new_root_id : Nat) : Option (MCTSAi B M) :=
  match s.nodes[s.root_id]? with
  | none => none
  | some n =>
    some { s with
      nodes := s.nodes.set s.root_id { n with parent := none }
      root_id := new_root_id }

/-- Embeds `MCTSAi::make_children(parent_id)`: one child per legal move of the parent
(in the parent's stored move order), their ids being the next arena positions
`nodes.len() .. nodes.len() + k`; the parent's children field is set before
the new nodes are appended.  Indexing a missing parent would panic; the
source's callers always pass a valid id, so the identity fallback here is
unreachable in context. -/
def MCTSAi.makeChildren (g : GameIF B M) (σ : B → List M) (s : MCTSAi B M)
    (parent_id : Nat) : MCTSAi B M :=
  match s.nodes[parent_id]? with
  | none => s
  | some pn =>
    let children := pn.possible_moves.map fun mv =>
      Node.make σ (g.play pn.board mv pn.active_player) pn.active_player.switch (some parent_id)
    let children_ids := List.range' s.nodes.length children.length
    { s with nodes := (s.nodes.set parent_id { pn with children := some children_ids }) ++ children }

/-- Embeds `Node::potential`: the UCB1 score
`(plays − wins) / total_plays + sqrt(2) · sqrt(ln(total_plays) / plays)`,
where the caller passes `total_plays = parent plays − 1`.  Embedded over ℝ
(the `f32` arithmetic uses `ln` and `sqrt`). -/
noncomputable def Node.potential (n : Node B M) (total_plays : ℝ) : ℝ :=
  ((n.plays : ℝ) - (n.wins : ℝ)) / total_plays +
    Real.sqrt 2 * Real.sqrt (Real.log total_plays / (n.plays : ℝ))

section
open Classical

/-- The inner child scan of `MCTSAi::selection`: walk the children ids,
returning the first unexplored child if any (`Sum.inl`), else the running
best-potential child (`Sum.inr`), starting from the source's initial
accumulator `best_potential = -1.0, best_child = 0`.  An invalid child id
would panic (`none`). -/
noncomputable def scanChildren (nodes : List (Node B M)) (tp : ℝ) :
    List Nat → ℝ → Nat → Option (Nat ⊕ Nat)
  | [], _, best_child => some (Sum.inr best_child)
  | child_id :: rest, best_potential, best_child =>
    match nodes[child_id]? with
    | none => none
    | some cn =>
      if cn.plays = 0 then some (Sum.inl child_id)
      else if best_potential < cn.potential tp then
        scanChildren nodes tp rest (cn.potential tp) child_id
      else scanChildren nodes tp rest best_potential best_child

/-- The loop of `MCTSAi::selection`, starting at `starting_node`: return an
unexplored node, a terminal node, or a first unexplored child; lazily expand;
otherwise descend into the best-potential child.  `fuel` is an embedding
device for termination only: each continuing iteration moves to a strictly
larger id without growing the arena, so `nodes.length` steps suffice. -/
noncomputable def selectionAux (g : GameIF B M) (σ : B → List M) :
    Nat → MCTSAi B M → Nat → Option (MCTSAi B M × Nat)
  | 0, _, _ => none
  | fuel + 1, s, starting_node =>
    match s.nodes[starting_node]? with
    | none => none
    | some n =>
      if n.plays = 0 then some (s, starting_node)
      else
        let s1 := if n.children = none then s.makeChildren g σ starting_node else s
        match s1.nodes[starting_node]? with
        | none => none
        | some n1 =>
          match n1.children with
          | none => none
          | some children =>
            if children = [] then some (s1, starting_node)
            else
              match scanChildren s1.nodes ((n.plays : ℝ) - 1) children (-1) 0 with
              | none => none
              | some (Sum.inl c) => some (s1, c)
              | some (Sum.inr best_child) => selectionAux g σ fuel s1 best_child

/-- Embeds `MCTSAi::selection`, from the current root. -/
noncomputable def MCTSAi.selection (g : GameIF B M) (σ : B → List M)
    (s : MCTSAi B M) : Option (MCTSAi B M × Nat) :=
  selectionAux g σ s.nodes.length s s.root_id

end

/-- Arena invariant: every stored parent id is strictly smaller than its
node's own id (`make_children` creates children at fresh, larger indices). -/
def parentDecreasing (nodes : List (Node B M)) : Prop :=
  ∀ (i : Nat) (n : Node B M), nodes[i]? = some n → ∀ p, n.parent = some p → p < i

/-- Arena invariant: every stored child id is strictly larger than its
parent's id and inside the arena. -/
def childrenInRange (nodes : List (Node B M)) : Prop :=
  ∀ (i : Nat) (n : Node B M), nodes[i]? = some n → ∀ l, n.children = some l →
    ∀ c ∈ l, i < c ∧ c < nodes.length

/-- Arena invariant on the statistics: wins are between 0 and plays, and
plays is 0 or at least 1 (each back-propagation adds exactly 1 play and at
most 1 win). -/
def statsWF (nodes : List (Node B M)) : Prop :=
  ∀ (i : Nat) (n : Node B M), nodes[i]? = some n →
    0 ≤ n.wins ∧ n.wins ≤ n.plays ∧ (n.plays = 0 ∨ 1 ≤ n.plays)

/-! ## Small-board lemmas and claims -/

lemma afterComplete_cells (b : SmallBoard) : b.afterComplete.cells = b.cells := by
  unfold SmallBoard.afterComplete
  split <;> rfl

lemma afterWin_getCell (b : SmallBoard) : b.afterWin.getCell = b.getCell := by
  unfold SmallBoard.afterWin
  split <;> rfl

lemma afterWin_state_of_some {b : SmallBoard} {m : Mark}
    (h : checkWinG b.getCell = some m) : b.afterWin.state = GameState.Won m := by
  unfold SmallBoard.afterWin
  rw [h]

/-- Successful `make_move` requires `Playing` and ends at the
complete-then-win pipeline. -/
lemma makeMove_eq_some {b : SmallBoard} {row col : Nat} {mark : Mark} {b' : SmallBoard}
    (h : b.makeMove row col mark = some b') :
    b.state = GameState.Playing ∧
    ∃ b1, b.set? row col (some mark) = some b1 ∧ b' = b1.afterComplete.afterWin := by
  unfold SmallBoard.makeMove at h
  split at h
  · cases h
  · rename_i hplay
    constructor
    · by_contra hne
      exact hplay hne
    · split at h
      · cases h
      · cases h
      · rename_i hget
        split at h
        · cases h
        · rename_i b1 hset
          exact ⟨b1, hset, (Option.some_injective _ h).symm⟩

/-- C7 — when a legal move on a `Playing` small board both fills the last
empty cell (post-board complete) and completes a three-in-a-row for `mark`
(the post-board win check yields `mark`), the resulting state is `Won mark`
and not `Draw`: `check_win` runs after `check_complete` and overwrites it. -/
theorem smallBoard_win_precedence_over_draw :
    ∀ (b : SmallBoard) (row col : Nat) (mark : Mark) (b' : SmallBoard),
      b.state = GameState.Playing →
      b.makeMove row col mark = some b' →
      b'.checkCompleteB = true →
      checkWinG b'.getCell = some mark →
      b'.state = GameState.Won mark ∧ b'.state ≠ GameState.Draw := by
  intro b row col mark b' _ h _ hwin
  obtain ⟨-, b1, -, hb'⟩ := makeMove_eq_some h
  subst hb'
  rw [afterWin_getCell] at hwin
  refine ⟨afterWin_state_of_some hwin, ?_⟩
  rw [afterWin_state_of_some hwin]
  simp

/-- Witness for C7: on the board `X X O / O O X / X _ X` (state `Playing`),
playing `X` at (2,1) fills the last cell and completes the bottom row. -/
def c7Board : SmallBoard :=
  { cells := fun i =>
      [some Mark.X, some Mark.X, some Mark.O,
       some Mark.O, some Mark.O, some Mark.X,
       some Mark.X, none, some Mark.X].getD i.val none
    state := GameState.Playing }

theorem smallBoard_win_precedence_over_draw_witness :
    ∃ b', c7Board.makeMove 2 1 Mark.X = some b' ∧
      b'.state = GameState.Won Mark.X ∧ b'.state ≠ GameState.Draw := by
  have hsome : (c7Board.makeMove 2 1 Mark.X).isSome = true := by decide
  obtain ⟨b', hb'⟩ := Option.isSome_iff_exists.mp hsome
  have hcomp : b'.checkCompleteB = true := by
    have h2 : (c7Board.makeMove 2 1 Mark.X).map SmallBoard.checkCompleteB = some true := by
      decide
    rw [hb'] at h2
    simpa using h2
  have hwin : checkWinG b'.getCell = some Mark.X := by
    have h2 : (c7Board.makeMove 2 1 Mark.X).map (fun b => checkWinG b.getCell) =
        some (some Mark.X) := by decide
    rw [hb'] at h2
    simpa using h2
  exact ⟨b', hb',
    smallBoard_win_precedence_over_draw c7Board 2 1 Mark.X b' (by decide) hb' hcomp hwin⟩

/-- C8 — small-board state transitions are one-directional: a successful
`make_move` can only start from `Playing` (so the state only ever moves
`Playing → {Playing, Won, Draw}` and a terminal state never changes), and once
the state is not `Playing` every further `make_move` is a fatal error (`none`
here, a panic in the source) leaving the board value untouched. -/
theorem smallBoard_terminal_state_final :
    ∀ (b : SmallBoard) (row col : Nat) (mark : Mark),
      (∀ b', b.makeMove row col mark = some b' → b.state = GameState.Playing) ∧
      (b.state ≠ GameState.Playing → b.makeMove row col mark = none) := by
  intro b row col mark
  constructor
  · intro b' h
    exact (makeMove_eq_some h).1
  · intro hne
    unfold SmallBoard.makeMove
    rw [if_pos hne]

theorem smallBoard_terminal_state_final_witness :
    SmallBoard.makeMove { cells := fun _ => none, state := GameState.Won Mark.X } 0 0 Mark.O =
      none ∧
    SmallBoard.makeMove { cells := fun _ => none, state := GameState.Draw } 1 2 Mark.X = none :=
  ⟨(smallBoard_terminal_state_final _ 0 0 Mark.O).2 (by decide),
   (smallBoard_terminal_state_final _ 1 2 Mark.X).2 (by decide)⟩

/-- A board holding `X` exactly in the cell stored at flat index 3, i.e. the
in-range cell (1, 0). -/
def aliasBoard : SmallBoard :=
  { cells := fun i => if i.val = 3 then some Mark.X else none
    state := GameState.Playing }

/-- C9 — evaluation at the failing input: the bounds guard `row > 3 ||
col > 3` lets `col = 3` through, so `get(0, 3)` silently returns the content
of the *different, in-range* cell (1, 0) (flat index `0 * 3 + 3 = 3`) instead
of panicking, `set(0, 3, ·)` silently overwrites that same cell, and
`BigBoard::get_board(0, 3)` silently returns the sub-board stored at (1, 0).
This contradicts the claim (and the functions' own documentation: arguments
are "Row/Column index (0-2)" and the panic message says "out of bounds"). -/
theorem outOfRange_access_aliases_cell :
    aliasBoard.get? 0 3 = some (aliasBoard.getCell 1 0) ∧
    aliasBoard.getCell 1 0 = some Mark.X ∧
    ((aliasBoard.set? 0 3 (some Mark.O)).map fun b1 => b1.getCell 1 0) = some (some Mark.O) ∧
    (BigBoard.new.getBoard? 0 3).isSome = true := by
  decide

/-! ## Big-board lemmas and claims -/

lemma getBoard?_active_irrel (b : BigBoard) (a : Option (Nat × Nat)) (r c : Nat) :
    ({ b with active_board := a } : BigBoard).getBoard? r c = b.getBoard? r c := rfl

/-- Decomposition of a successful `BigBoard::make_move`: the result is the
post-checks board with `active_board` recomputed from the cell coordinates
just played. -/
lemma bigMakeMove_eq_some {b : BigBoard} {board_row board_col cell_row cell_col : Nat}
    {mark : Mark} {b' : BigBoard}
    (h : b.makeMove board_row board_col cell_row cell_col mark = some b') :
    ∃ sb, b'.getBoard? cell_row cell_col = some sb ∧
      b'.active_board = (match sb.state with
        | GameState.Playing => some (cell_row, cell_col)
        | _ => none) := by
  unfold BigBoard.makeMove at h
  split at h
  · cases h
  · split at h
    · cases h
    · split at h
      · rename_i hidx
        split at h
        · cases h
        · rename_i sb1 hsb1
          unfold BigBoard.setActive at h
          split at h
          · cases h
          · rename_i tb htb
            refine ⟨tb, ?_, ?_⟩
            · rw [← (Option.some_injective _ h)]
              rw [getBoard?_active_irrel]
              exact htb
            · rw [← (Option.some_injective _ h)]
      · cases h

/-- C4 — after every successful `make_move(board_row, board_col, cell_row,
cell_col, mark)` on a `Playing` big board, `active_board` is
`some (cell_row, cell_col)` when the sub-board at `(cell_row, cell_col)` is
still `Playing` after the move, and `none` when that sub-board is terminal
after the move. -/
theorem bigBoard_active_board_recomputed :
    ∀ (b : BigBoard) (board_row board_col cell_row cell_col : Nat) (mark : Mark)
      (b' : BigBoard),
      b.state = GameState.Playing →
      b.makeMove board_row board_col cell_row cell_col mark = some b' →
      ∃ sb, b'.getBoard? cell_row cell_col = some sb ∧
        (sb.state = GameState.Playing → b'.active_board = some (cell_row, cell_col)) ∧
        (sb.state ≠ GameState.Playing → b'.active_board = none) := by
  intro b br bc cr cc mark b' _ h
  obtain ⟨sb, hget, hact⟩ := bigMakeMove_eq_some h
  refine ⟨sb, hget, ?_, ?_⟩
  · intro hs
    rw [hact, hs]
  · intro hs
    rw [hact]
    cases hstate : sb.state with
    | Playing => exact absurd hstate hs
    | Won m => rfl
    | Draw => rfl

theorem bigBoard_active_board_recomputed_witness :
    ∃ b' sb, BigBoard.new.makeMove 0 0 1 1 Mark.X = some b' ∧
      b'.getBoard? 1 1 = some sb ∧
      (sb.state = GameState.Playing → b'.active_board = some (1, 1)) ∧
      (sb.state ≠ GameState.Playing → b'.active_board = none) := by
  have hsome : (BigBoard.new.makeMove 0 0 1 1 Mark.X).isSome = true := by decide
  obtain ⟨b', hb'⟩ := Option.isSome_iff_exists.mp hsome
  obtain ⟨sb, hget, h1, h2⟩ :=
    bigBoard_active_board_recomputed BigBoard.new 0 0 1 1 Mark.X b' (by decide) hb'
  exact ⟨b', sb, hb', hget, h1, h2⟩

/-- C5 — on every big board reachable from `BigBoard::new` by successful
moves, an active-board constraint `some (r, c)` always points at a sub-board
whose state is `Playing`: a finished sub-board is never set active. -/
theorem bigBoard_active_is_playing :
    ∀ b : BigBoard, b.Reachable → ∀ r c : Nat, b.active_board = some (r, c) →
      ∃ sb, b.getBoard? r c = some sb ∧ sb.state = GameState.Playing := by
  intro b hreach
  induction hreach with
  | base =>
    intro r c h
    exact absurd h (by simp [BigBoard.new])
  | step _ hmove _ =>
    intro r c hact
    obtain ⟨sb, hget, hactive⟩ := bigMakeMove_eq_some hmove
    rw [hactive] at hact
    cases hstate : sb.state with
    | Playing =>
      rw [hstate] at hact
      simp only [Option.some.injEq, Prod.mk.injEq] at hact
      obtain ⟨hr, hc⟩ := hact
      subst hr
      subst hc
      exact ⟨sb, hget, hstate⟩
    | Won m =>
      rw [hstate] at hact
      cases hact
    | Draw =>
      rw [hstate] at hact
      cases hact

theorem bigBoard_active_is_playing_witness :
    ∃ b', BigBoard.new.makeMove 0 0 1 1 Mark.X = some b' ∧
      ∀ r c : Nat, b'.active_board = some (r, c) →
        ∃ sb, b'.getBoard? r c = some sb ∧ sb.state = GameState.Playing := by
  have hsome : (BigBoard.new.makeMove 0 0 1 1 Mark.X).isSome = true := by decide
  obtain ⟨b', hb'⟩ := Option.isSome_iff_exists.mp hsome
  exact ⟨b', hb',
    bigBoard_active_is_playing b' (BigBoard.Reachable.step BigBoard.Reachable.base hb')⟩

lemma orElse_eq_some {α : Type} {a b : Option α} {m : α} (h : (a <|> b) = some m) :
    a = some m ∨ b = some m := by
  rcases a with _ | x
  · right
    simpa using h
  · left
    simpa using h

/-- A three-cell check of the `check_row`/`check_col`/`check_diag` shape
succeeds exactly when all three reads return the same mark. -/
lemma bindChain3_eq_some {a b c : Option Mark} {m : Mark}
    (h : (a.bind fun m0 =>
          b.bind fun m1 =>
          if m1 ≠ m0 then none else
          c.bind fun m2 =>
          if m2 ≠ m0 then none else some m0) = some m) :
    a = some m ∧ b = some m ∧ c = some m := by
  rcases a with _ | m0
  · simp at h
  rcases b with _ | m1
  · simp at h
  rcases c with _ | m2
  · simp only [Option.some_bind, Option.none_bind] at h
    split at h <;> cases h
  simp only [Option.some_bind] at h
  split at h
  · cases h
  · split at h
    · cases h
    · rename_i h1 h2
      simp only [ne_eq, not_not] at h1 h2
      obtain rfl := Option.some_injective _ h
      exact ⟨rfl, by rw [h1], by rw [h2]⟩

/-- The eight winning lines of a 3×3 grid, as (row, col) triples, in the order
the source checks them. -/
def winLines : List (List (Nat × Nat)) :=
  [[(0, 0), (1, 1), (2, 2)], [(0, 2), (1, 1), (2, 0)],
   [(0, 0), (0, 1), (0, 2)], [(0, 0), (1, 0), (2, 0)],
   [(1, 0), (1, 1), (1, 2)], [(0, 1), (1, 1), (2, 1)],
   [(2, 0), (2, 1), (2, 2)], [(0, 2), (1, 2), (2, 2)]]

/-- The meta-game cell of the big board reads `some m` exactly when the
sub-board there is recorded as won by `m`. -/
lemma metaGet_eq_some {b : BigBoard} {r c : Nat} {m : Mark} :
    b.metaGet r c = some m ↔
      ∃ sb, b.getBoard? r c = some sb ∧ sb.state = GameState.Won m := by
  unfold BigBoard.metaGet
  cases hg : b.getBoard? r c with
  | none => simp
  | some sb =>
    cases hs : sb.state with
    | Playing => simp [hs]
    | Won m2 => simp [hs]
    | Draw => simp [hs]

lemma line3_won {b : BigBoard} {m : Mark} {p0 p1 p2 : Nat × Nat}
    (h0 : b.metaGet p0.1 p0.2 = some m) (h1 : b.metaGet p1.1 p1.2 = some m)
    (h2 : b.metaGet p2.1 p2.2 = some m) :
    ∀ p ∈ [p0, p1, p2], ∃ sb, b.getBoard? p.1 p.2 = some sb ∧
      sb.state = GameState.Won m := by
  intro p hp
  simp only [List.mem_cons, List.mem_singleton] at hp
  rcases hp with rfl | rfl | rfl | hfalse
  · exact metaGet_eq_some.mp h0
  · exact metaGet_eq_some.mp h1
  · exact metaGet_eq_some.mp h2
  · cases hfalse

/-- C6 — the meta-game cell used by the meta win check is `some mark` iff the
sub-board at that position has state `Won mark` (a `Draw` or `Playing`
sub-board counts as empty), and consequently every meta three-in-a-row found
by the win check consists solely of sub-boards in a `Won` state — a drawn
sub-board can never be part of one. -/
theorem bigBoard_meta_win_from_won_only :
    ∀ (b : BigBoard) (r c : Nat) (m : Mark),
      (b.metaGet r c = some m ↔
        ∃ sb, b.getBoard? r c = some sb ∧ sb.state = GameState.Won m) ∧
      (checkWinG b.metaGet = some m →
        ∃ line ∈ winLines, ∀ p ∈ line,
          ∃ sb, b.getBoard? p.1 p.2 = some sb ∧ sb.state = GameState.Won m) := by
  intro b r c m
  refine ⟨metaGet_eq_some, ?_⟩
  intro h
  unfold checkWinG at h
  rcases orElse_eq_some h with h1 | h
  · obtain ⟨ha, hb, hc⟩ := bindChain3_eq_some h1
    exact ⟨[(0, 0), (1, 1), (2, 2)], by simp [winLines], line3_won ha hb hc⟩
  rcases orElse_eq_some h with h1 | h
  · obtain ⟨ha, hb, hc⟩ := bindChain3_eq_some h1
    exact ⟨[(0, 2), (1, 1), (2, 0)], by simp [winLines], line3_won ha hb hc⟩
  rcases orElse_eq_some h with h1 | h
  · obtain ⟨ha, hb, hc⟩ := bindChain3_eq_some h1
    exact ⟨[(0, 0), (0, 1), (0, 2)], by simp [winLines], line3_won ha hb hc⟩
  rcases orElse_eq_some h with h1 | h
  · obtain ⟨ha, hb, hc⟩ := bindChain3_eq_some h1
    exact ⟨[(0, 0), (1, 0), (2, 0)], by simp [winLines], line3_won ha hb hc⟩
  rcases orElse_eq_some h with h1 | h
  · obtain ⟨ha, hb, hc⟩ := bindChain3_eq_some h1
    exact ⟨[(1, 0), (1, 1), (1, 2)], by simp [winLines], line3_won ha hb hc⟩
  rcases orElse_eq_some h with h1 | h
  · obtain ⟨ha, hb, hc⟩ := bindChain3_eq_some h1
    exact ⟨[(0, 1), (1, 1), (2, 1)], by simp [winLines], line3_won ha hb hc⟩
  rcases orElse_eq_some h with h1 | h1
  · obtain ⟨ha, hb, hc⟩ := bindChain3_eq_some h1
    exact ⟨[(2, 0), (2, 1), (2, 2)], by simp [winLines], line3_won ha hb hc⟩
  · obtain ⟨ha, hb, hc⟩ := bindChain3_eq_some h1
    exact ⟨[(0, 2), (1, 2), (2, 2)], by simp [winLines], line3_won ha hb hc⟩

/-- A big board whose top row of sub-boards is recorded as won by X (the rest
untouched), used to exercise the meta win check. -/
def c6Board : BigBoard :=
  { boards := fun i =>
      if i.val < 3 then { cells := fun _ => none, state := GameState.Won Mark.X }
      else SmallBoard.new
    state := GameState.Playing
    active_board := none }

theorem bigBoard_meta_win_from_won_only_witness :
    (c6Board.metaGet 0 0 = some Mark.X ↔
      ∃ sb, c6Board.getBoard? 0 0 = some sb ∧ sb.state = GameState.Won Mark.X) ∧
    (∃ line ∈ winLines, ∀ p ∈ line,
      ∃ sb, c6Board.getBoard? p.1 p.2 = some sb ∧ sb.state = GameState.Won Mark.X) :=
  ⟨(bigBoard_meta_win_from_won_only c6Board 0 0 Mark.X).1,
   (bigBoard_meta_win_from_won_only c6Board 0 0 Mark.X).2 (by decide)⟩

/-! ## MCTS lemmas and claims -/

/-- A two-node arena over the trivial board: node 0 is the root, node 1 its
child (parent id 0). -/
def c2Node0 : Node Unit Unit :=
  { parent := none, children := some [1], board := (), active_player := Mark.X,
    wins := 0, plays := 1, possible_moves := [] }

def c2Node1 : Node Unit Unit :=
  { parent := some 0, children := none, board := (), active_player := Mark.O,
    wins := 0, plays := 0, possible_moves := [] }

def c2Ai : MCTSAi Unit Unit :=
  { nodes := [c2Node0, c2Node1], root_id := 0, ai_mark := Mark.X }

/-- C2 — evaluation at the failing input: `reroot(1)` on the two-node arena
rebinds `root_id` to 1 but leaves node 1's parent link at `some 0` — the
source clears the parent of the node at the OLD `root_id`
(`self.nodes[self.root_id].parent = None`), not of `new_root_id`, so the new
root is not detached from its former parent and parent-link walks from inside
the subtree continue past it into the abandoned old root. -/
theorem reroot_keeps_new_root_parent :
    ((c2Ai.reroot 1).map MCTSAi.root_id = some 1) ∧
    ((c2Ai.reroot 1).bind fun s1 => (s1.nodes[1]?).map Node.parent) = some (some 0) ∧
    ((c2Ai.reroot 1).bind fun s1 => (s1.nodes[0]?).map Node.parent) = some none := by
  refine ⟨rfl, rfl, rfl⟩

lemma getElem?_lt {α : Type} {l : List α} {i : Nat} {a : α} (h : l[i]? = some a) :
    i < l.length :=
  (List.getElem?_eq_some_iff.mp h).1

lemma updateStat_parent (r : GameState) (n : Node B M) :
    (updateStat r n).parent = n.parent := rfl

lemma updateStat_eq (r : GameState) (n : Node B M) :
    updateStat r n =
      { n with plays := n.plays + 1, wins := n.wins + winCredit r n.active_player } := by
  unfold updateStat winCredit
  cases r with
  | Playing => norm_num
  | Draw => norm_num
  | Won m =>
    by_cases hm : m = n.active_player
    · simp [hm]
    · simp [hm]

lemma parentDecreasing_set {nodes : List (Node B M)} {id : Nat} {n0 : Node B M}
    (hpd : parentDecreasing nodes) (r : GameState) (hn : nodes[id]? = some n0) :
    parentDecreasing (nodes.set id (updateStat r n0)) := by
  intro i m hm p hp
  by_cases hi : id = i
  · subst hi
    rw [List.getElem?_set_eq_of_lt _ (getElem?_lt hn)] at hm
    obtain rfl := (Option.some_injective _ hm).symm
    exact hpd id n0 hn p hp
  · rw [List.getElem?_set_ne hi] at hm
    exact hpd i m hm p hp

lemma parentPathAux_set {nodes : List (Node B M)} {id : Nat} {n0 : Node B M}
    (r : GameState) (hn : nodes[id]? = some n0) :
    ∀ (fuel start : Nat),
      parentPathAux fuel (nodes.set id (updateStat r n0)) start =
        parentPathAux fuel nodes start := by
  intro fuel
  induction fuel with
  | zero => intro start; rfl
  | succ f ih =>
    intro start
    simp only [parentPathAux]
    by_cases hs : id = start
    · subst hs
      rw [List.getElem?_set_eq_of_lt _ (getElem?_lt hn), hn]
      dsimp only
      rw [updateStat_parent]
      cases hp : n0.parent with
      | none => rfl
      | some p =>
        dsimp only
        rw [ih]
    · rw [List.getElem?_set_ne hs]
      cases hq : nodes[start]? with
      | none => rfl
      | some m =>
        dsimp only
        cases hp : m.parent with
        | none => rfl
        | some p =>
          dsimp only
          rw [ih]

lemma parentPathAux_le {nodes : List (Node B M)} (hpd : parentDecreasing nodes) :
    ∀ (fuel start j : Nat), j ∈ parentPathAux fuel nodes start → j ≤ start := by
  intro fuel
  induction fuel with
  | zero =>
    intro start j h
    simp [parentPathAux] at h
  | succ f ih =>
    intro start j h
    simp only [parentPathAux] at h
    cases hs : nodes[start]? with
    | none => rw [hs] at h; simp at h
    | some n =>
      rw [hs] at h
      simp only [List.mem_cons] at h
      rcases h with rfl | h
      · exact le_refl _
      · cases hp : n.parent with
        | none => rw [hp] at h; simp at h
        | some p =>
          rw [hp] at h
          exact le_trans (ih p j h) (le_of_lt (hpd start n hs p hp))

lemma backPropagateAux_spec (result : GameState) :
    ∀ (fuel : Nat) (nodes : List (Node B M)) (id : Nat),
      parentDecreasing nodes → id < fuel → id < nodes.length →
      ∀ (i : Nat) (n : Node B M), nodes[i]? = some n →
        (backPropagateAux result fuel nodes id)[i]? =
          some { n with
            plays := n.plays + (if i ∈ parentPathAux fuel nodes id then 1 else 0),
            wins := n.wins +
              (if i ∈ parentPathAux fuel nodes id then winCredit result n.active_player
               else 0) } := by
  intro fuel
  induction fuel with
  | zero =>
    intro nodes id _ h0
    exact absurd h0 (Nat.not_lt_zero id)
  | succ f ih =>
    intro nodes id hpd _ hlen i n hi
    cases hid : nodes[id]? with
    | none =>
      rw [List.getElem?_eq_none_iff] at hid
      omega
    | some nid =>
      simp only [backPropagateAux, parentPathAux, hid]
      cases hp : nid.parent with
      | none =>
        dsimp only
        by_cases hii : i = id
        · subst hii
          rw [hi] at hid
          obtain rfl := Option.some_injective _ hid
          rw [List.getElem?_set_eq_of_lt _ hlen]
          simp [updateStat_eq]
        · rw [List.getElem?_set_ne (fun hh => hii hh.symm), hi]
          simp [hii]
      | some p =>
        dsimp only
        have hpid : p < id := hpd id nid hid p hp
        have hpd1 : parentDecreasing (nodes.set id (updateStat result nid)) :=
          parentDecreasing_set hpd result hid
        have hpath := parentPathAux_set result hid f p
        by_cases hii : i = id
        · subst hii
          rw [hi] at hid
          obtain rfl := Option.some_injective _ hid
          have hrec := ih (nodes.set i (updateStat result n)) p hpd1 (by omega)
            (by rw [List.length_set]; omega) i (updateStat result n)
            (List.getElem?_set_eq_of_lt _ hlen)
          rw [hrec, hpath]
          have hnot : i ∉ parentPathAux f nodes p := by
            intro hmem
            have := parentPathAux_le hpd f p i hmem
            omega
          simp [hnot, updateStat_eq]
        · have hrec := ih (nodes.set id (updateStat result nid)) p hpd1 (by omega)
            (by rw [List.length_set]; omega) i n
            (by rw [List.getElem?_set_ne (fun hh => hii hh.symm)]; exact hi)
          rw [hrec, hpath]
          simp [List.mem_cons, hii]

/-- C1 — `back_propagate(from_id, result)` increments, for exactly the nodes
on the parent-link path from `from_id` up to the parentless root, the play
count by 1 and the win count by `winCredit result` (1 on a win for that node's
active player, 1/2 on a draw, 0 on a win for the other mark); every node off
the path is left completely unchanged.  The hypotheses are the arena
invariants under which the source's walk terminates: parent ids decrease and
`from_id` is a valid index. -/
theorem backPropagate_path_increments :
    ∀ (s : MCTSAi B M) (from_id : Nat) (result : GameState),
      parentDecreasing s.nodes → from_id < s.nodes.length →
      ∀ (i : Nat) (n : Node B M), s.nodes[i]? = some n →
        (s.backPropagate from_id result).nodes[i]? =
          some { n with
            plays := n.plays + (if i ∈ parentPath s.nodes from_id then 1 else 0),
            wins := n.wins +
              (if i ∈ parentPath s.nodes from_id then winCredit result n.active_player
               else 0) } :=
  fun s from_id result hpd hlt i n hi =>
    backPropagateAux_spec result (from_id + 1) s.nodes from_id hpd
      (Nat.lt_succ_self from_id) hlt i n hi

/-- A two-node arena for the back-propagation witness: root 0 (active X,
1 play) with explored child 1 (active O, unexplored). -/
def c1Node0 : Node Unit Unit :=
  { parent := none, children := some [1], board := (), active_player := Mark.X,
    wins := 1/2, plays := 1, possible_moves := [] }

def c1Node1 : Node Unit Unit :=
  { parent := some 0, children := none, board := (), active_player := Mark.O,
    wins := 0, plays := 0, possible_moves := [] }

def c1Ai : MCTSAi Unit Unit :=
  { nodes := [c1Node0, c1Node1], root_id := 0, ai_mark := Mark.X }

lemma c1Ai_parentDecreasing : parentDecreasing c1Ai.nodes := by
  intro i n h p hp
  match i with
  | 0 =>
    injection h with h2
    subst h2
    exact Option.noConfusion hp
  | 1 =>
    injection h with h2
    subst h2
    injection hp with hp2
    omega
  | Nat.succ (Nat.succ k) =>
    exact Option.noConfusion h

theorem backPropagate_path_increments_witness :
    (c1Ai.backPropagate 1 (GameState.Won Mark.O)).nodes[1]? =
      some { c1Node1 with
        plays := c1Node1.plays + (if 1 ∈ parentPath c1Ai.nodes 1 then 1 else 0),
        wins := c1Node1.wins +
          (if 1 ∈ parentPath c1Ai.nodes 1 then
            winCredit (GameState.Won Mark.O) c1Node1.active_player
           else 0) } :=
  backPropagate_path_increments c1Ai 1 (GameState.Won Mark.O) c1Ai_parentDecreasing
    (by decide) 1 c1Node1 rfl

lemma makeChildren_parent_get (g : GameIF B M) (σ : B → List M) {s : MCTSAi B M}
    {pid : Nat} {pn : Node B M} (h : s.nodes[pid]? = some pn) :
    (s.makeChildren g σ pid).nodes[pid]? =
      some { pn with
        children := some (List.range' s.nodes.length pn.possible_moves.length) } := by
  unfold MCTSAi.makeChildren
  rw [h]
  dsimp only
  rw [List.length_map]
  rw [List.getElem?_append_left (by rw [List.length_set]; exact getElem?_lt h)]
  exact List.getElem?_set_eq_of_lt _ (getElem?_lt h)

lemma makeChildren_child_get (g : GameIF B M) (σ : B → List M) {s : MCTSAi B M}
    {pid : Nat} {pn : Node B M} (h : s.nodes[pid]? = some pn) (j : Nat)
    (hj : j < pn.possible_moves.length) :
    ∃ c : Node B M, (s.makeChildren g σ pid).nodes[s.nodes.length + j]? = some c ∧
      c.plays = 0 := by
  unfold MCTSAi.makeChildren
  rw [h]
  dsimp only
  rw [List.getElem?_append_right (by rw [List.length_set]; omega)]
  rw [List.length_set]
  have hidx : s.nodes.length + j - s.nodes.length = j := by omega
  rw [hidx]
  rw [List.getElem?_map]
  cases hpm : pn.possible_moves[j]? with
  | none =>
    rw [List.getElem?_eq_none_iff] at hpm
    omega
  | some mv => exact ⟨_, rfl, rfl⟩

lemma potential_nonneg {n : Node B M} {tp : ℝ} (h1 : n.wins ≤ n.plays)
    (htp : 0 ≤ tp) : 0 ≤ n.potential tp := by
  unfold Node.potential
  apply add_nonneg
  · apply div_nonneg _ htp
    have hcast : (n.wins : ℝ) ≤ (n.plays : ℝ) := by exact_mod_cast h1
    linarith
  · exact mul_nonneg (Real.sqrt_nonneg _) (Real.sqrt_nonneg _)

lemma scanChildren_isSome {nodes : List (Node B M)} {tp : ℝ} :
    ∀ (l : List Nat) (bp : ℝ) (bc : Nat),
      (∀ c ∈ l, ∃ cn : Node B M, nodes[c]? = some cn) →
      ∃ r, scanChildren nodes tp l bp bc = some r := by
  intro l
  induction l with
  | nil => intro bp bc _; exact ⟨Sum.inr bc, rfl⟩
  | cons c rest ih =>
    intro bp bc hval
    obtain ⟨cn, hcn⟩ := hval c (List.mem_cons_self c rest)
    simp only [scanChildren, hcn]
    by_cases hp : cn.plays = 0
    · rw [if_pos hp]
      exact ⟨Sum.inl c, rfl⟩
    · rw [if_neg hp]
      have hrest : ∀ c2 ∈ rest, ∃ cn2 : Node B M, nodes[c2]? = some cn2 :=
        fun c2 hc2 => hval c2 (List.mem_cons_of_mem c hc2)
      by_cases hlt : bp < cn.potential tp
      · rw [if_pos hlt]
        exact ih (cn.potential tp) c hrest
      · rw [if_neg hlt]
        exact ih bp bc hrest

lemma scanChildren_all_explored {nodes : List (Node B M)} {tp : ℝ} :
    ∀ (l : List Nat) (bp : ℝ) (bc : Nat),
      (∀ c ∈ l, ∃ cn : Node B M, nodes[c]? = some cn ∧ cn.plays ≠ 0) →
      ∃ b, scanChildren nodes tp l bp bc = some (Sum.inr b) := by
  intro l
  induction l with
  | nil => intro bp bc _; exact ⟨bc, rfl⟩
  | cons c rest ih =>
    intro bp bc hval
    obtain ⟨cn, hcn, hp⟩ := hval c (List.mem_cons_self c rest)
    simp only [scanChildren, hcn]
    rw [if_neg hp]
    have hrest : ∀ c2 ∈ rest, ∃ cn2 : Node B M, nodes[c2]? = some cn2 ∧ cn2.plays ≠ 0 :=
      fun c2 hc2 => hval c2 (List.mem_cons_of_mem c hc2)
    by_cases hlt : bp < cn.potential tp
    · rw [if_pos hlt]
      exact ih (cn.potential tp) c hrest
    · rw [if_neg hlt]
      exact ih bp bc hrest

lemma scanChildren_inr {nodes : List (Node B M)} {tp : ℝ} :
    ∀ (l : List Nat) (bp : ℝ) (bc b : Nat),
      scanChildren nodes tp l bp bc = some (Sum.inr b) →
      (b = bc ∧ ∀ c ∈ l, ∀ cn : Node B M, nodes[c]? = some cn → cn.potential tp ≤ bp) ∨
      (b ∈ l ∧ ∃ bn : Node B M, nodes[b]? = some bn ∧ bp < bn.potential tp ∧
        ∀ c ∈ l, ∀ cn : Node B M, nodes[c]? = some cn →
          cn.potential tp ≤ bn.potential tp) := by
  intro l
  induction l with
  | nil =>
    intro bp bc b h
    left
    refine ⟨?_, by simp⟩
    simpa [scanChildren] using h.symm
  | cons c rest ih =>
    intro bp bc b h
    simp only [scanChildren] at h
    cases hcn : nodes[c]? with
    | none => rw [hcn] at h; cases h
    | some cn =>
      rw [hcn] at h
      dsimp only at h
      split at h
      · cases h
      · rename_i hplays
        split at h
        · rename_i hlt
          rcases ih (cn.potential tp) c b h with ⟨heq, hall⟩ | ⟨hmem, bn, hbn, hgt, hall⟩
          · right
            refine ⟨by rw [heq]; exact List.mem_cons_self c rest, cn,
              by rw [heq]; exact hcn, hlt, ?_⟩
            intro c2 hc2 cn2 hcn2
            rcases List.mem_cons.mp hc2 with rfl | hc2
            · rw [hcn] at hcn2
              obtain rfl := Option.some_injective _ hcn2
              exact le_refl _
            · exact hall c2 hc2 cn2 hcn2
          · right
            refine ⟨List.mem_cons_of_mem c hmem, bn, hbn, lt_trans hlt hgt, ?_⟩
            intro c2 hc2 cn2 hcn2
            rcases List.mem_cons.mp hc2 with rfl | hc2
            · rw [hcn] at hcn2
              obtain rfl := Option.some_injective _ hcn2
              exact le_of_lt hgt
            · exact hall c2 hc2 cn2 hcn2
        · rename_i hnlt
          rcases ih bp bc b h with ⟨heq, hall⟩ | ⟨hmem, bn, hbn, hgt, hall⟩
          · left
            refine ⟨heq, ?_⟩
            intro c2 hc2 cn2 hcn2
            rcases List.mem_cons.mp hc2 with rfl | hc2
            · rw [hcn] at hcn2
              obtain rfl := Option.some_injective _ hcn2
              exact not_lt.mp hnlt
            · exact hall c2 hc2 cn2 hcn2
          · right
            refine ⟨List.mem_cons_of_mem c hmem, bn, hbn, hgt, ?_⟩
            intro c2 hc2 cn2 hcn2
            rcases List.mem_cons.mp hc2 with rfl | hc2
            · rw [hcn] at hcn2
              obtain rfl := Option.some_injective _ hcn2
              exact le_of_lt (lt_of_le_of_lt (not_lt.mp hnlt) hgt)
            · exact hall c2 hc2 cn2 hcn2

lemma selectionAux_isSome (g : GameIF B M) (σ : B → List M) :
    ∀ (fuel : Nat) (s : MCTSAi B M) (cur : Nat),
      childrenInRange s.nodes → statsWF s.nodes →
      cur < s.nodes.length → s.nodes.length ≤ fuel + cur →
      (selectionAux g σ fuel s cur).isSome = true := by
  intro fuel
  induction fuel with
  | zero =>
    intro s cur _ _ h1 h2
    omega
  | succ f ih =>
    intro s cur hcir hwf hlt hfuel
    cases hcur : s.nodes[cur]? with
    | none =>
      rw [List.getElem?_eq_none_iff] at hcur
      omega
    | some n =>
      simp only [selectionAux, hcur]
      by_cases hplays : n.plays = 0
      · rw [if_pos hplays]
        rfl
      · rw [if_neg hplays]
        cases hch : n.children with
        | none =>
          rw [if_pos rfl]
          rw [makeChildren_parent_get g σ hcur]
          dsimp only
          cases hk : n.possible_moves.length with
          | zero =>
            rw [show List.range' s.nodes.length 0 = [] from rfl, if_pos rfl]
            rfl
          | succ k =>
            rw [if_neg (by simp)]
            obtain ⟨c0, hc0, hc0p⟩ := makeChildren_child_get g σ hcur 0 (by omega)
            rw [Nat.add_zero] at hc0
            have hrange : List.range' s.nodes.length (k + 1) =
                s.nodes.length :: List.range' (s.nodes.length + 1) k := rfl
            rw [hrange]
            simp only [scanChildren, hc0]
            rw [if_pos hc0p]
            rfl
        | some l =>
          rw [if_neg (by simp)]
          simp only [hcur]
          rw [hch]
          dsimp only
          by_cases hlnil : l = []
          · rw [if_pos hlnil]
            rfl
          · rw [if_neg hlnil]
            have hval : ∀ c ∈ l, ∃ cn : Node B M, s.nodes[c]? = some cn := by
              intro c hc
              have hb := (hcir cur n hcur l hch c hc).2
              exact ⟨s.nodes[c], List.getElem?_eq_some_iff.mpr ⟨hb, rfl⟩⟩
            obtain ⟨r, hr⟩ := scanChildren_isSome l (-1) 0 hval
            rw [hr]
            cases r with
            | inl c => rfl
            | inr b =>
              dsimp only
              rcases scanChildren_inr l (-1) 0 b hr with ⟨_, hall⟩ | ⟨hmem, _, _, _, _⟩
              · exfalso
                obtain ⟨c0, hc0⟩ := List.exists_mem_of_ne_nil l hlnil
                obtain ⟨cn0, hcn0⟩ := hval c0 hc0
                have hple := hall c0 hc0 cn0 hcn0
                have hwfc := hwf c0 cn0 hcn0
                have hwfcur := hwf cur n hcur
                have htp : (0 : ℝ) ≤ (n.plays : ℝ) - 1 := by
                  rcases hwfcur.2.2 with h0 | h1
                  · exact absurd h0 hplays
                  · have : (1 : ℝ) ≤ (n.plays : ℝ) := by exact_mod_cast h1
                    linarith
                have := potential_nonneg hwfc.2.1 htp
                linarith
              · have hb := hcir cur n hcur l hch b hmem
                exact ih s b hcir hwf hb.2 (by omega)

/-- C10 — the selection loop terminates.  First conjunct: `make_children`
stores, for a parent at a valid index, the fresh child ids
`nodes.len() .. nodes.len() + k`, every one strictly greater than the parent's
index.  Second conjunct: under the resulting arena invariants (children ids
strictly above their parent and inside the arena, well-formed statistics),
`selection` from a valid root returns a node — each continuing iteration moves
to a strictly larger id without growing the arena, bounded by the arena
length, which is exactly the fuel `selection` is given here. -/
theorem mcts_selection_terminates :
    ∀ (g : GameIF B M) (σ : B → List M),
      (∀ (s : MCTSAi B M) (pid : Nat) (pn : Node B M), s.nodes[pid]? = some pn →
        (s.makeChildren g σ pid).nodes[pid]? =
          some { pn with
            children := some (List.range' s.nodes.length pn.possible_moves.length) } ∧
        ∀ c ∈ List.range' s.nodes.length pn.possible_moves.length, pid < c) ∧
      (∀ s : MCTSAi B M, childrenInRange s.nodes → statsWF s.nodes →
        s.root_id < s.nodes.length → (s.selection g σ).isSome = true) := by
  intro g σ
  constructor
  · intro s pid pn h
    refine ⟨makeChildren_parent_get g σ h, ?_⟩
    intro c hc
    rw [List.mem_range'_1] at hc
    have := getElem?_lt h
    omega
  · intro s hcir hwf hroot
    exact selectionAux_isSome g σ s.nodes.length s s.root_id hcir hwf hroot (by omega)

/-- The trivial game over the unit board: no moves, always `Playing`. -/
def unitGame : GameIF Unit Unit :=
  { getState := fun _ => GameState.Playing
    getPossibleMoves := fun _ => []
    play := fun _ _ _ => () }

def unitSigma : Unit → List Unit := fun _ => []

/-- A fresh unexpanded root node over the unit board. -/
def c10Node : Node Unit Unit :=
  { parent := none
    children := none
    board := ()
    active_player := Mark.X
    wins := 0
    plays := 0
    possible_moves := [] }

/-- A one-node arena (a fresh root) for the termination witness. -/
def c10Ai : MCTSAi Unit Unit :=
  { nodes := [c10Node], root_id := 0, ai_mark := Mark.X }

lemma c10Ai_childrenInRange : childrenInRange c10Ai.nodes := by
  intro i n h l hl c hc
  match i with
  | 0 =>
    rw [show c10Ai.nodes[0]? = some c10Node from rfl] at h
    obtain rfl := Option.some_injective _ h.symm
    exact Option.noConfusion hl
  | Nat.succ k =>
    rw [show c10Ai.nodes[Nat.succ k]? = none from rfl] at h
    exact Option.noConfusion h

lemma c10Ai_statsWF : statsWF c10Ai.nodes := by
  intro i n h
  match i with
  | 0 =>
    rw [show c10Ai.nodes[0]? = some c10Node from rfl] at h
    obtain rfl := Option.some_injective _ h.symm
    exact ⟨le_refl 0, le_refl 0, Or.inl rfl⟩
  | Nat.succ k =>
    rw [show c10Ai.nodes[Nat.succ k]? = none from rfl] at h
    exact Option.noConfusion h

theorem mcts_selection_terminates_witness :
    ((c10Ai.makeChildren unitGame unitSigma 0).nodes[0]? =
      some { c10Node with
        children := some (List.range' c10Ai.nodes.length c10Node.possible_moves.length) }) ∧
    (c10Ai.selection unitGame unitSigma).isSome = true := by
  constructor
  · exact ((mcts_selection_terminates unitGame unitSigma).1 c10Ai 0 c10Node rfl).1
  · exact (mcts_selection_terminates unitGame unitSigma).2 c10Ai c10Ai_childrenInRange
      c10Ai_statsWF (by decide)

/-- C3 — one step of the selection loop at a node with `plays > 0`, a
non-empty children list, and every child explored (`plays > 0`): the child
scan returns (`Sum.inr`) a child `b` of the list that maximizes
`Node.potential (parent_plays − 1)`, i.e.
`(plays − wins) / (parent_plays − 1) + sqrt 2 · sqrt (ln (parent_plays − 1) / plays)`
— the exploitation term is the child's loss rate — and the loop descends into
`b`.  The extra bounds (`1 ≤ plays` for the integer-valued play count, wins
between 0 and plays) are the statistics invariants `back_propagate`
maintains. -/
theorem selection_descends_to_best_ucb1 :
    ∀ (g : GameIF B M) (σ : B → List M) (s : MCTSAi B M) (fuel cur : Nat)
      (n : Node B M) (l : List Nat),
      s.nodes[cur]? = some n →
      1 ≤ n.plays →
      n.children = some l →
      l ≠ [] →
      (∀ c ∈ l, ∃ cn : Node B M, s.nodes[c]? = some cn ∧ 0 < cn.plays ∧
        0 ≤ cn.wins ∧ cn.wins ≤ cn.plays) →
      ∃ (b : Nat) (bn : Node B M),
        scanChildren s.nodes ((n.plays : ℝ) - 1) l (-1) 0 = some (Sum.inr b) ∧
        b ∈ l ∧ s.nodes[b]? = some bn ∧
        (∀ c ∈ l, ∀ cn : Node B M, s.nodes[c]? = some cn →
          cn.potential ((n.plays : ℝ) - 1) ≤ bn.potential ((n.plays : ℝ) - 1)) ∧
        selectionAux g σ (fuel + 1) s cur = selectionAux g σ fuel s b := by
  intro g σ s fuel cur n l hn hplays hch hlnil hexp
  have hplays0 : ¬ n.plays = 0 := by
    intro h0
    rw [h0] at hplays
    norm_num at hplays
  have htp : (0 : ℝ) ≤ (n.plays : ℝ) - 1 := by
    have hcast : (1 : ℝ) ≤ (n.plays : ℝ) := by exact_mod_cast hplays
    linarith
  obtain ⟨b, hscan⟩ := scanChildren_all_explored l (-1) 0
    (fun c hc => (hexp c hc).elim fun cn hcn => ⟨cn, hcn.1, ne_of_gt hcn.2.1⟩)
  rcases scanChildren_inr l (-1) 0 b hscan with ⟨_, hall⟩ | ⟨hmem, bn, hbn, _, hall⟩
  · exfalso
    obtain ⟨c0, hc0⟩ := List.exists_mem_of_ne_nil l hlnil
    obtain ⟨cn0, hcn0, _, _, hwle⟩ := hexp c0 hc0
    have h1 := hall c0 hc0 cn0 hcn0
    have h2 := potential_nonneg hwle htp
    linarith
  · refine ⟨b, bn, hscan, hmem, hbn, hall, ?_⟩
    simp only [selectionAux, hn]
    rw [if_neg hplays0, hch]
    rw [if_neg (by simp)]
    simp only [hn]
    rw [hch]
    dsimp only
    rw [if_neg hlnil, hscan]

/-- A two-node arena for the UCB1 witness: explored root 0 (2 plays, 1 win)
with a single explored child 1 (1 play, half a win). -/
def c3Node0 : Node Unit Unit :=
  { parent := none, children := some [1], board := (), active_player := Mark.X,
    wins := 1, plays := 2, possible_moves := [] }

def c3Node1 : Node Unit Unit :=
  { parent := some 0, children := none, board := (), active_player := Mark.O,
    wins := 1/2, plays := 1, possible_moves := [] }

def c3Ai : MCTSAi Unit Unit :=
  { nodes := [c3Node0, c3Node1], root_id := 0, ai_mark := Mark.X }

theorem selection_descends_to_best_ucb1_witness :
    ∃ (b : Nat) (bn : Node Unit Unit),
      scanChildren c3Ai.nodes ((c3Node0.plays : ℝ) - 1) [1] (-1) 0 = some (Sum.inr b) ∧
      b ∈ [1] ∧ c3Ai.nodes[b]? = some bn ∧
      (∀ c ∈ [1], ∀ cn : Node Unit Unit, c3Ai.nodes[c]? = some cn →
        cn.potential ((c3Node0.plays : ℝ) - 1) ≤ bn.potential ((c3Node0.plays : ℝ) - 1)) ∧
      selectionAux unitGame unitSigma 6 c3Ai 0 = selectionAux unitGame unitSigma 5 c3Ai b := by
  refine selection_descends_to_best_ucb1 unitGame unitSigma c3Ai 5 0 c3Node0 [1] rfl ?_ rfl
    (by simp) ?_
  · norm_num [c3Node0]
  · intro c hc
    have hc1 : c = 1 := by simpa using hc
    subst hc1
    refine ⟨c3Node1, rfl, ?_, ?_, ?_⟩
    · norm_num [c3Node1]
    · norm_num [c3Node1]
    · norm_num [c3Node1]
